import Mathlib

/-!
Verification development for the B-Tree implementation in
`data_structures/binary_tree/b_tree.py`.

The Python class `BTree` is a node of a multi-way search tree: fields
`order` (max keys per node, identical in every node of one tree),
`keys` (sorted list), `children` (list of child nodes; empty for a
leaf), and `parent` (back-reference).

Embedding notes:
* A node is modelled as the inductive `BTree` below.  The `parent`
  back-reference cannot be represented in a purely functional tree, so
  the functional model elides it; all mutation performed *through*
  parent pointers in Python (median pushed up on insert, rebalancing on
  remove) is represented by returning the information the parent needs
  and letting the caller - which in Python is exactly the parent frame
  reached via the pointer - perform the identical updates in the same
  order.  Claims that are *about* the parent pointers themselves are
  settled against a second, store-based embedding (`PNode`/`Store`
  below) in which every node lives at an index of a store and `parent`
  is an explicit `Option` index, exactly as in the Python object graph.
* Values stored in the tree are `Int` (the tests use Python ints).
* Python list indexing raises `IndexError` when out of bounds, and
  list methods such as `list.index` raise `ValueError` on a miss;
  every operation that can raise is modelled with `Option`, `none`
  standing for an exception (or for exhausted fuel, see next point).
* `insert` and `remove` recurse both down the tree and, through parent
  pointers, back up; the remove/rebalance group is additionally
  mutually re-entrant (rotations call full `insert`/`remove` on
  siblings).  These functions therefore take a `fuel` argument;
  `none` on fuel exhaustion.  Read-only helpers (`contains`,
  `maximum`, `minimum`) recurse structurally and are total.
-/

/-- A B-Tree node: `node keys children`.  A leaf has `children = []`.
The tree-wide `order` field is passed to the operations as an explicit
parameter instead of being stored in every node. -/
inductive BTree where
  | node (keys : List Int) (children : List BTree)
deriving Repr

namespace BTree

/-- The `keys` field of a node. -/
def keys : BTree → List Int
  | node ks _ => ks

/-- The `children` field of a node. -/
def children : BTree → List BTree
  | node _ cs => cs

/-- Python `self.keys.insert(i, value)`: insert at position `i`
(appends when `i` is past the end, as in Python). -/
def insertAt (i : Nat) (v : Int) (l : List Int) : List Int :=
  l.take i ++ v :: l.drop i

/-- Python slice assignment `l[i:i+1] = new`: the element at `i` is
replaced by the elements of `new` (when `i` is past the end this
appends `new`, as in Python). -/
def splice11 (i : Nat) (new : List BTree) (l : List BTree) : List BTree :=
  l.take i ++ new ++ l.drop (i + 1)

/-- The scan `for i in range(len(keys)): if keys[i] == v ...; if keys[i] > v ...`
shared by `__contains__`, `insert` and `remove`: the first index whose
key is `≥ v`, paired with whether that key equals `v`; `none` when every
key is `< v` (the loop runs to completion). -/
def scanGE (v : Int) : List Int → Option (Nat × Bool)
  | [] => none
  | k :: rest =>
    if k = v then some (0, true)
    else if k > v then some (0, false)
    else (scanGE v rest).map (fun p => (p.1 + 1, p.2))

end BTree

mutual
/-- All keys stored in the subtree (node keys first, then each child's
keys, left to right). -/
def BTree.allKeys : BTree → List Int
  | .node ks cs => ks ++ BTree.allKeysL cs

/-- List version of `allKeys`. -/
def BTree.allKeysL : List BTree → List Int
  | [] => []
  | c :: rest => BTree.allKeys c ++ BTree.allKeysL rest
end

/-- Python `BTree.__contains__`.  The guard `self.children[i] is None`
in the source is dead code (children lists never contain `None`:
the constructor turns `None` into `[]`), so it is not modelled;
`none` is an out-of-bounds `children[i]` (IndexError) or exhausted
fuel. -/
def BTree.containsT (fuel : Nat) (v : Int) (t : BTree) : Option Bool :=
  match fuel with
  | 0 => none
  | fuel + 1 =>
    match t with
    | .node ks cs =>
      match BTree.scanGE v ks with
      | some (_, true) => some true
      | some (i, false) =>
        if cs.isEmpty then some false
        else
          match cs.get? i with
          | none => none
          | some c => BTree.containsT fuel v c
      | none =>
        if cs.isEmpty then some false
        else
          match cs.getLast? with
          | none => none
          | some c => BTree.containsT fuel v c

/-- Python `BTree.maximum`: descend into the last child until a leaf,
then return the last key.  `none` models the IndexError `keys[-1]`
raises on an empty leaf (and the unreachable `children[-1]` of an
empty-but-nonempty-guarded children list). -/
def BTree.maximumT : BTree → Option Int
  | .node ks cs =>
    if cs.isEmpty then ks.getLast?
    else
      match h : cs.getLast? with
      | none => none
      | some c => BTree.maximumT c
termination_by t => sizeOf t
decreasing_by
  have h1 := List.sizeOf_lt_of_mem (List.mem_of_mem_getLast? h)
  simp only [BTree.node.sizeOf_spec]
  omega

/-- Python `BTree.minimum`: descend into the first child until a leaf,
then return the first key.  `none` models the IndexError `keys[0]`
raises on an empty leaf. -/
def BTree.minimumT : BTree → Option Int
  | .node ks cs =>
    if cs.isEmpty then ks.head?
    else
      match h : cs.head? with
      | none => none
      | some c => BTree.minimumT c
termination_by t => sizeOf t
decreasing_by
  have h1 := List.sizeOf_lt_of_mem (List.mem_of_mem_head? h)
  simp only [BTree.node.sizeOf_spec]
  omega

namespace BTree

/-- The leaf branch of Python `BTree.insert`: scan the sorted keys;
`none` when `v` is already present (Python returns `False`), otherwise
the key list with `v` inserted at its sorted position (first index
whose key exceeds `v`, else appended - the `for/else` in the source). -/
def leafInsert (v : Int) : List Int → Option (List Int)
  | [] => some [v]
  | k :: rest =>
    if k = v then none
    else if k > v then some (v :: k :: rest)
    else (leafInsert v rest).map (fun l => k :: l)

/-- The scan in `BTree._insert_recurse`: first index whose key is
strictly greater than the pushed-up median (no equality case in the
source), `none` when the loop completes (`for/else`). -/
def firstIdxGT (v : Int) : List Int → Option Nat
  | [] => none
  | k :: rest => if k > v then some 0 else (firstIdxGT v rest).map (· + 1)

/-- Outcome of `insert` on a subtree, as seen by the parent frame.
`ok` is the plain case.  `split m lk rk lc rc` is the state after the
subtree ran `BTree._insert_median_split`: median `m`, key partitions
`lk`/`rk` and child partitions `lc`/`rc`.  Which parts the parent uses
mirrors the source: `_insert_recurse` (a non-root parent) receives
only `(median, left, right)` and builds the two replacement nodes with
no children, so `lc`/`rc` are silently lost; only the root case of
`_insert_median_split` (handled in `insertT`) uses `lc`/`rc`. -/
inductive InsRes where
  | ok (t : BTree)
  | split (median : Int) (leftKeys rightKeys : List Int)
      (leftChildren rightChildren : List BTree)

/-- The computation in `BTree._insert_median_split` (shared by the
root and non-root cases): `median_index = len(keys)//2`, the median
key, the strict left/right key partitions and the child partitions
`children[:median_index+1]` / `children[median_index+1:]` (both `[]`
for a leaf, where Python passes `None` and the constructor makes
`[]`).  The `getD` default is unreachable: the split only runs when
`len(keys) > order`, so `keys` is nonempty and `median_index` is in
bounds. -/
def medianSplit (ks : List Int) (cs : List BTree) : InsRes :=
  let mi := ks.length / 2
  .split (ks.getD mi 0) (ks.take mi) (ks.drop (mi + 1)) (cs.take (mi + 1)) (cs.drop (mi + 1))

/-- Python `BTree._insert_recurse` executed by a node on keys `ks`,
children `cs` when a child pushes up `(median, left, right)`: insert
the median at the first position whose key exceeds it and replace the
child slot there (`children[i:i+1]`) with two fresh childless nodes,
else append the median and replace the last slot (`children[-1:]`).
Then, as in the source, if the key count now exceeds `order`, split
this node too (`_insert_median_split`; the non-root continuation is
the returned `split`, the root continuation is applied in `insertT`).

The slot that is spliced away is the one at the median's sort
position; under the data-model invariants that is exactly the slot of
the child that split, so the overfull child state is discarded.  (On a
tree already violating the key-range invariants the source would
replace a different slot, leaving the overfull child object in place;
in that unreachable-under-hypothesis situation this model keeps the
pre-split child instead.) -/
def insertRecurseStep (order : Nat) (ks : List Int) (cs : List BTree)
    (median : Int) (left right : List Int) : InsRes :=
  let lnode := BTree.node left []
  let rnode := BTree.node right []
  let p :=
    match firstIdxGT median ks with
    | some j => (insertAt j median ks, splice11 j [lnode, rnode] cs)
    | none => (ks ++ [median], cs.dropLast ++ [lnode, rnode])
  if p.1.length > order then medianSplit p.1 p.2 else .ok (BTree.node p.1 p.2)

end BTree

/-- Python `BTree.insert`, recursion core.  Descends exactly as the
source (equal key: return `False`; first greater key: recurse into
that child; otherwise last child), inserts at a leaf, and runs the
overflow splits of `_insert_median_split`/`_insert_recurse` in the
parent frames, which in Python are reached through the `parent`
pointer.  `none` models an out-of-bounds child access (IndexError) or
exhausted fuel. -/
def BTree.insertGo (fuel order : Nat) (t : BTree) (v : Int) : Option (Bool × BTree.InsRes) :=
  match fuel with
  | 0 => none
  | fuel + 1 =>
    match t with
    | .node ks cs =>
      if cs.isEmpty then
        match BTree.leafInsert v ks with
        | none => some (false, .ok (.node ks cs))
        | some ks2 =>
          if ks2.length > order then some (true, BTree.medianSplit ks2 cs)
          else some (true, .ok (.node ks2 cs))
      else
        match BTree.scanGE v ks with
        | some (_, true) => some (false, .ok (.node ks cs))
        | some (i, false) =>
          match cs.get? i with
          | none => none
          | some c =>
            match BTree.insertGo fuel order c v with
            | none => none
            | some (b, .ok c2) => some (b, .ok (.node ks (cs.set i c2)))
            | some (b, .split m lk rk _ _) =>
              some (b, BTree.insertRecurseStep order ks cs m lk rk)
        | none =>
          match cs.getLast? with
          | none => none
          | some c =>
            match BTree.insertGo fuel order c v with
            | none => none
            | some (b, .ok c2) => some (b, .ok (.node ks (cs.set (cs.length - 1) c2)))
            | some (b, .split m lk rk _ _) =>
              some (b, BTree.insertRecurseStep order ks cs m lk rk)

/-- Python `BTree.insert` called on the root node.  A `split` escaping
to the top is the root case of `_insert_median_split`: the root is
rebuilt in place holding only the median, with the two partition nodes
as children (here the child partitions are kept; the accompanying
`_insert_fix_parent_refs` only rewrites parent pointers, which the
functional model elides and the store model checks). -/
def BTree.insertT (fuel order : Nat) (t : BTree) (v : Int) : Option (Bool × BTree) :=
  match BTree.insertGo fuel order t v with
  | none => none
  | some (b, .ok t2) => some (b, t2)
  | some (b, .split m lk rk lc rc) => some (b, .node [m] [.node lk lc, .node rk rc])

/-- Fold `insert` over a list of values (as the tests do with
`[tree.insert(x) for x in values]`), conjoining the returned booleans
so a run also records whether every single insert reported success. -/
def BTree.insertSeq (fuel order : Nat) (t : BTree) (vs : List Int) : Option (Bool × BTree) :=
  match vs with
  | [] => some (true, t)
  | v :: rest =>
    match BTree.insertT fuel order t v with
    | none => none
    | some (b, t2) =>
      match BTree.insertSeq fuel order t2 rest with
      | none => none
      | some (ball, t3) => some (b && ball, t3)

namespace BTree

/-- The four branches of Python `BTree._remove_rebalance` (in source
order): rotate right via the left sibling, rotate left via the right
sibling, `_remove_combine_left(self)`, and - when no left sibling
exists - `_remove_combine_left(self.right_sibling)`. -/
inductive RBranch where
  | rotateRight
  | rotateLeft
  | combineSelf
  | combineRight
deriving DecidableEq, Repr

/-- The branch selection of Python `BTree._remove_rebalance`, given
the underflowing node's left and right siblings (`none` when absent).
The rotation guards compare the sibling's `num_children` - the length
of its `children` list, not its key count - against `order`, exactly
as in the source. -/
def rebalanceBranch (order : Nat) (lsib rsib : Option BTree) : RBranch :=
  let lbig : Bool := match lsib with
    | some l => decide (l.children.length > order)
    | none => false
  let rbig : Bool := match rsib with
    | some r => decide (r.children.length > order)
    | none => false
  if lbig then .rotateRight
  else if rbig then .rotateLeft
  else if lsib.isSome then .combineSelf
  else .combineRight

/-- Python `BTree._remove_combine_left(child)` executed by the parent
on keys `ks`, children `cs`, with `child = cs[cIdx]`: fold the
separator `ks[cIdx-1]` and all of the child's keys and children onto
the left neighbour `cs[cIdx-1]`, re-home the migrated children's
parent pointers (`_insert_fix_parent_refs`, elided in the functional
model), and delete the separator from `ks`.  Nothing in the source
removes the merged-away child from `cs`, so it stays at `cIdx`.
Returns the new keys and children together with the parent-underflow
flag `len(keys) < order // 2` that decides the recursive
`_remove_rebalance()` call.  Both call sites pass `cIdx ≥ 1`
(a left neighbour exists), so Python's negative-index wrap for
`cIdx = 0` is unreachable.  `none` is an IndexError. -/
def combineLeftStep (order : Nat) (ks : List Int) (cs : List BTree) (cIdx : Nat) :
    Option (List Int × List BTree × Bool) :=
  match cs.get? (cIdx - 1), cs.get? cIdx, ks.get? (cIdx - 1) with
  | some l, some c, some sep =>
    let merged := BTree.node (l.keys ++ sep :: c.keys) (l.children ++ c.children)
    let ks2 := ks.eraseIdx (cIdx - 1)
    let cs2 := cs.set (cIdx - 1) merged
    some (ks2, cs2, decide (ks2.length < order / 2))
  | _, _, _ => none

end BTree

/-- Python `BTree._remove_rebalance` invoked on `children[i]` (which
has this frame's node as its parent).  The initial `print(self)` debug
statement has no state effect and is elided.  Sibling lookup uses the
child's position `i` (the source recovers it with the identity-based
`list.index`).  Rotations call the full public `insert` and `remove`
methods on the underflowing node and the sibling subtree, exactly as
the source does; those two methods are passed in as `ins` and `rm` by
`removeGo`, which ties the recursive knot through its fuel. -/
def BTree.rebalanceAt (order : Nat)
    (rm : BTree → Int → Option (Option Bool × BTree × Bool))
    (ins : BTree → Int → Option (Bool × BTree))
    (ks : List Int) (cs : List BTree) (i : Nat) :
    Option (List Int × List BTree × Bool) :=
  match cs.get? i with
  | none => none
  | some c =>
    let lsib := if i = 0 then none else cs.get? (i - 1)
    let rsib := if i = cs.length - 1 then none else cs.get? (i + 1)
    match BTree.rebalanceBranch order lsib rsib with
    | .rotateRight =>
      match ks.get? (i - 1), lsib with
      | some sep, some l =>
        match ins c sep with
        | none => none
        | some (_, c2) =>
          match BTree.maximumT l with
          | none => none
          | some m =>
            match rm l m with
            | none => none
            | some (_, l2, _) =>
              some (ks.set (i - 1) m, (cs.set i c2).set (i - 1) l2, false)
      | _, _ => none
    | .rotateLeft =>
      match ks.get? i, rsib with
      | some sep, some r =>
        match ins c sep with
        | none => none
        | some (_, c2) =>
          match BTree.minimumT r with
          | none => none
          | some m =>
            match rm r m with
            | none => none
            | some (_, r2, _) =>
              some (ks.set i m, (cs.set i c2).set (i + 1) r2, false)
      | _, _ => none
    | .combineSelf => BTree.combineLeftStep order ks cs i
    | .combineRight =>
      match rsib with
      | none => none
      | some _ => BTree.combineLeftStep order ks cs (i + 1)

/-- Store the returned child state back into the `children` slot `i`
(in Python the child object was mutated in place) and, when the child
signalled underflow, run `_remove_rebalance` for it in this parent
frame. -/
def BTree.removeAfterChild (order : Nat)
    (rm : BTree → Int → Option (Option Bool × BTree × Bool))
    (ins : BTree → Int → Option (Bool × BTree))
    (res : Option Bool) (ks : List Int)
    (cs : List BTree) (i : Nat) (c2 : BTree) (uf : Bool) :
    Option (Option Bool × BTree × Bool) :=
  let cs2 := cs.set i c2
  if uf then
    match BTree.rebalanceAt order rm ins ks cs2 i with
    | none => none
    | some (ks3, cs3, uf2) => some (res, BTree.node ks3 cs3, uf2)
  else some (res, BTree.node ks cs2, false)

/-- Python `BTree.remove`.  Result components: the returned value
(`some true`/`some false`, or `none` for the implicit Python `None`
when the leaf scan falls off the end of the keys), the new subtree,
and whether this node finished under-occupied and asked its parent to
rebalance it (in Python this happens through `self.parent` inside
`_remove_rebalance`; the parent is exactly the calling frame).  The
outer `Option` is an exception (IndexError/ValueError) or exhausted
fuel. -/
def BTree.removeGo (fuel order : Nat) (t : BTree) (v : Int) :
    Option (Option Bool × BTree × Bool) :=
  match fuel with
  | 0 => none
  | fuel + 1 =>
    match t with
    | .node ks cs =>
      if cs.isEmpty then
        match BTree.scanGE v ks with
        | some (_, true) =>
          let ks2 := ks.erase v
          some (some true, .node ks2 cs, decide (ks2.length < order / 2))
        | some (_, false) => some (some false, .node ks cs, false)
        | none => some (none, .node ks cs, false)
      else
        match BTree.scanGE v ks with
        | some (i, true) =>
          match cs.get? i with
          | none => none
          | some c =>
            match BTree.maximumT c with
            | none => none
            | some pred =>
              match BTree.removeGo fuel order c pred with
              | none => none
              | some (res, c2, uf) =>
                BTree.removeAfterChild order
                  (fun t2 v2 => BTree.removeGo fuel order t2 v2)
                  (fun t2 v2 => BTree.insertT fuel order t2 v2)
                  res (ks.set i pred) cs i c2 uf
        | some (i, false) =>
          match cs.get? i with
          | none => none
          | some c =>
            match BTree.removeGo fuel order c v with
            | none => none
            | some (res, c2, uf) =>
              BTree.removeAfterChild order
                (fun t2 v2 => BTree.removeGo fuel order t2 v2)
                (fun t2 v2 => BTree.insertT fuel order t2 v2)
                res ks cs i c2 uf
        | none =>
          match cs.getLast? with
          | none => none
          | some c =>
            match BTree.removeGo fuel order c v with
            | none => none
            | some (res, c2, uf) =>
              BTree.removeAfterChild order
                (fun t2 v2 => BTree.removeGo fuel order t2 v2)
                (fun t2 v2 => BTree.insertT fuel order t2 v2)
                res ks cs (cs.length - 1) c2 uf

/-- Python `BTree.remove` called on the root node: a trailing
underflow signal is dropped, because `_remove_rebalance` on a node
with no parent returns without doing anything. -/
def BTree.removeT (fuel order : Nat) (t : BTree) (v : Int) : Option (Option Bool × BTree) :=
  match BTree.removeGo fuel order t v with
  | none => none
  | some (res, t2, _) => some (res, t2)

namespace BTree

/-- Lower-bound check: `k` is above the optional open bound `lo`. -/
def oltB (lo : Option Int) (k : Int) : Bool :=
  match lo with
  | none => true
  | some a => decide (a < k)

/-- Upper-bound check: `k` is below the optional open bound `hi`. -/
def ortB (k : Int) (hi : Option Int) : Bool :=
  match hi with
  | none => true
  | some b => decide (k < b)

/-- Invariant 1 of the data model: the keys are strictly ascending and
each lies strictly inside the open interval `(lo, hi)`. -/
def chainB (lo hi : Option Int) : List Int → Bool
  | [] => true
  | k :: rest => oltB lo k && ortB k hi && chainB (some k) hi rest

end BTree

mutual
/-- Well-formedness of a subtree per the data-model invariants of the
specification, for a tree of the given `order` (`root = true` for the
root, which is exempt from minimum occupancy): keys strictly sorted
within the open bounds (invariant 1), at most `order` keys (invariant
2), at least `ceil(order/2) - 1` keys in every non-root node
(invariant 3), `len(children) = len(keys) + 1` for internal nodes, and
each child's keys strictly between the adjacent separators (invariant
4).  Invariant 5 (parent back-references) lives in the object graph
and is checked in the store model instead. -/
def BTree.wfB (order : Nat) (root : Bool) (lo hi : Option Int) : BTree → Bool
  | .node ks cs =>
    BTree.chainB lo hi ks
    && decide (ks.length ≤ order)
    && (root || decide ((order + 1) / 2 - 1 ≤ ks.length))
    && (cs.isEmpty || (decide (cs.length = ks.length + 1) && BTree.wfWalk order lo hi ks cs))

/-- Walk the separators and children of an internal node in step,
checking each child against its interval: `children[i]` is bounded by
`keys[i-1]` below and `keys[i]` above (with the node's own outer
bounds at the two ends). -/
def BTree.wfWalk (order : Nat) (lo hi : Option Int) : List Int → List BTree → Bool
  | [], [c] => BTree.wfB order false lo hi c
  | k :: ks, c :: cs => BTree.wfB order false lo (some k) c && BTree.wfWalk order (some k) hi ks cs
  | _, _ => false
end

mutual
/-- Invariant 2 alone: every node of the subtree holds at most `order`
keys. -/
def BTree.countsLE (order : Nat) : BTree → Bool
  | .node ks cs => decide (ks.length ≤ order) && BTree.countsLEL order cs

/-- List version of `countsLE`. -/
def BTree.countsLEL (order : Nat) : List BTree → Bool
  | [] => true
  | c :: rest => BTree.countsLE order c && BTree.countsLEL order rest
end

mutual
/-- Invariant 3 for a non-root node and its descendants: at least
`ceil(order/2) - 1` keys everywhere below (and at) this node. -/
def BTree.minOccSub (order : Nat) : BTree → Bool
  | .node ks cs => decide ((order + 1) / 2 - 1 ≤ ks.length) && BTree.minOccSubL order cs

/-- List version of `minOccSub`. -/
def BTree.minOccSubL (order : Nat) : List BTree → Bool
  | [] => true
  | c :: rest => BTree.minOccSub order c && BTree.minOccSubL order rest
end

/-- Invariant 3 for a whole tree: every non-root node (every proper
descendant of the root) holds at least `ceil(order/2) - 1` keys. -/
def BTree.minOccOK (order : Nat) (t : BTree) : Bool :=
  BTree.minOccSubL order t.children

mutual
/-- The child-count part of the data model: every node of the subtree
that has at least one child has exactly `len(keys) + 1` children. -/
def BTree.arityOK : BTree → Bool
  | .node ks cs => (cs.isEmpty || decide (cs.length = ks.length + 1)) && BTree.arityOKL cs

/-- List version of `arityOK`. -/
def BTree.arityOKL : List BTree → Bool
  | [] => true
  | c :: rest => BTree.arityOK c && BTree.arityOKL rest
end

mutual
/-- Every leaf of the subtree holds at least one key. -/
def BTree.leavesNE : BTree → Bool
  | .node ks cs => if cs.isEmpty then !ks.isEmpty else BTree.leavesNEL cs

/-- List version of `leavesNE`. -/
def BTree.leavesNEL : List BTree → Bool
  | [] => true
  | c :: rest => BTree.leavesNE c && BTree.leavesNEL rest
end

/-- A node record of the Python object graph: the four instance
fields of class `BTree`.  `children` and `parent` hold store indices
(Python references). -/
structure PNode where
  order : Nat
  keys : List Int
  children : List Nat
  parent : Option Nat
deriving Repr, DecidableEq

/-- The Python object store: node `i` of the graph is `s.get? i`.
Nodes are only ever appended, so an index never moves - it plays the
role of a Python object identity. -/
abbrev Store := List PNode

/-- Python `BTree._insert_fix_parent_refs`: point the `parent` field
of every child of `self` at `self`. -/
def pFixParentRefs (s : Store) (self : Nat) : Option Store :=
  match s.get? self with
  | none => none
  | some nd =>
    nd.children.foldlM
      (fun s2 cid =>
        match s2.get? cid with
        | none => none
        | some c => some (s2.set cid { c with parent := some self }))
      s

/-- Python `BTree._insert_recurse` on the store: insert the pushed-up
median into `self`'s keys at the first position whose key exceeds it
(else append), replace the child slot there with two freshly
allocated nodes holding only the key partitions (`BTree(order, left,
self)` - no children are passed), and split `self` in turn if it
overflowed.  The trailing `_insert_median_split` call is passed in as
`split` by `pInsertMedianSplit`, which ties the recursive knot
through its fuel. -/
def pInsertRecurse (split : Store → Nat → Option Store) (s : Store) (self : Nat)
    (median : Int) (left right : List Int) : Option Store :=
  match s.get? self with
  | none => none
  | some nd =>
    let n1 := s.length
    let s1 := s ++ [⟨nd.order, left, [], some self⟩]
    let n2 := s1.length
    let s2 := s1 ++ [⟨nd.order, right, [], some self⟩]
    let upd :=
      match BTree.firstIdxGT median nd.keys with
      | some j =>
        (BTree.insertAt j median nd.keys,
         nd.children.take j ++ n1 :: n2 :: nd.children.drop (j + 1))
      | none => (nd.keys ++ [median], nd.children.dropLast ++ [n1, n2])
    let s3 := s2.set self ⟨nd.order, upd.1, upd.2, nd.parent⟩
    if upd.1.length > nd.order then split s3 self else some s3

/-- Python `BTree._insert_median_split` on the store: split `self`
along its median.  In the root case `self` is rebuilt in place with
the two freshly allocated partition nodes (which receive the key and
child partitions and `parent = self`) and the grandchildren are
re-homed by `_insert_fix_parent_refs`; otherwise the median and the
two key partitions alone are handed to the parent's
`_insert_recurse`. -/
def pInsertMedianSplit (fuel : Nat) (s : Store) (self : Nat) : Option Store :=
  match fuel with
  | 0 => none
  | fuel + 1 =>
    match s.get? self with
    | none => none
    | some nd =>
      let mi := nd.keys.length / 2
      match nd.keys.get? mi with
      | none => none
      | some median =>
        let left := nd.keys.take mi
        let right := nd.keys.drop (mi + 1)
        let lc := nd.children.take (mi + 1)
        let rc := nd.children.drop (mi + 1)
        match nd.parent with
        | none =>
          let n1 := s.length
          let s1 := s ++ [⟨nd.order, left, lc, some self⟩]
          let n2 := s1.length
          let s2 := s1 ++ [⟨nd.order, right, rc, some self⟩]
          let s3 := s2.set self ⟨nd.order, [median], [n1, n2], nd.parent⟩
          match pFixParentRefs s3 n1 with
          | none => none
          | some s4 => pFixParentRefs s4 n2
        | some p =>
          pInsertRecurse (fun s2 self2 => pInsertMedianSplit fuel s2 self2)
            s p median left right

/-- Python `BTree.insert` on the store. -/
def pInsert (fuel : Nat) (s : Store) (self : Nat) (v : Int) : Option (Bool × Store) :=
  match fuel with
  | 0 => none
  | fuel + 1 =>
    match s.get? self with
    | none => none
    | some nd =>
      if nd.children.isEmpty then
        match BTree.leafInsert v nd.keys with
        | none => some (false, s)
        | some ks2 =>
          let s1 := s.set self { nd with keys := ks2 }
          if ks2.length > nd.order then
            match pInsertMedianSplit fuel s1 self with
            | none => none
            | some s2 => some (true, s2)
          else some (true, s1)
      else
        match BTree.scanGE v nd.keys with
        | some (_, true) => some (false, s)
        | some (i, false) =>
          match nd.children.get? i with
          | none => none
          | some cid => pInsert fuel s cid v
        | none =>
          match nd.children.getLast? with
          | none => none
          | some cid => pInsert fuel s cid v

/-- Fold `insert` over a list of values on the store, always calling
through the same root object, as the test does. -/
def pInsertSeq (fuel : Nat) (s : Store) (root : Nat) (vs : List Int) : Option Store :=
  match vs with
  | [] => some s
  | v :: rest =>
    match pInsert fuel s root v with
    | none => none
    | some (_, s2) => pInsertSeq fuel s2 root rest

/-- C1: the claim fails on the code.  Inserting the distinct values
1..11 in that order into a fresh order-2 tree makes every insert
report success (first component `true`), yet afterwards `contains`
answers `False` for the inserted value 5: when the non-root internal
node holding [6, 8, 10] split, `_insert_recurse` rebuilt its two
halves without their children, silently dropping the subtrees that
held 5, 7, 9 and 11. -/
theorem C1_contains_after_inserts_fails :
    (BTree.insertSeq 100 2 (.node [] []) [1, 2, 3, 4, 5, 6, 7, 8, 9, 10, 11]).map
        (fun p => (p.1, BTree.containsT 100 5 p.2))
      = some (true, some false) := by rfl

/-- C2: the claim fails on the code.  Removing the absent value 5 from
the well-formed one-node tree holding [1, 2] leaves the tree unchanged
but returns Python `None` (modelled `none`), not `False`: the leaf
scan falls off the end of the keys and `remove` has no return
statement on that path, contradicting its own docstring. -/
theorem C2_remove_absent_returns_none :
    BTree.removeT 100 2 (.node [1, 2] []) 5 = some (none, .node [1, 2] []) := by rfl

/-- C3: the claim fails on the code.  Order 5, insert 1..6 (the root
splits into [1,2,3] | 4 | [5,6]), then remove 6: the leaf [5]
underflows and `_remove_combine_left` folds the separator 4 and the
leaf's keys into its left sibling, deletes the separator from the
parent - but never removes the merged-away child from the parent's
`children`.  The parent ends with 0 keys and 2 children
(`len(children) = len(keys) + 2`), and the stale child still holds
the duplicated key 5. -/
theorem C3_merge_keeps_merged_child :
    ((BTree.insertSeq 100 5 (.node [] []) [1, 2, 3, 4, 5, 6]).bind
        (fun p => BTree.removeT 100 5 p.2 6)).map
        (fun q => (q.1, q.2, BTree.arityOK q.2))
      = some (some true, .node [] [.node [1, 2, 3, 4, 5] [], .node [5] []], false) := by rfl

/-- C4: the claim fails on the code.  Order 2, insert [1, 2, 3] (root
splits), then remove 3: the emptied leaf is merged left but stays in
the root's child list, so the root has 0 keys and 2 children - a node
with at least one child violating `len(children) = len(keys) + 1`
(first conjunct of the claim, hence the claimed conjunction fails). -/
theorem C4_child_count_invariant_fails :
    ((BTree.insertSeq 100 2 (.node [] []) [1, 2, 3]).bind
        (fun p => BTree.removeT 100 2 p.2 3)).map
        (fun q => (q.1, q.2, BTree.arityOK q.2))
      = some (some true, .node [] [.node [1, 2] [], .node [] []], false) := by rfl

/-- C5: the claim fails on the code.  Order 3 (minimum occupancy
`ceil(3/2) - 1 = 1`), insert [1, 2, 3, 4], then remove 4: after the
completed remove the merged-away leaf remains attached as a non-root
node with 0 keys. -/
theorem C5_min_occupancy_fails :
    ((BTree.insertSeq 100 3 (.node [] []) [1, 2, 3, 4]).bind
        (fun p => BTree.removeT 100 3 p.2 4)).map
        (fun q => (q.1, q.2, BTree.minOccOK 3 q.2))
      = some (some true, .node [] [.node [1, 2, 3] [], .node [] []], false) := by rfl

/-- C6: the claim fails on the code.  Order 3, insert [1, 2, 3, 4],
remove 4 (leaving the broken tree of `C5_min_occupancy_fails`, a
state reachable through the public interface alone), then insert 1:
the value 1 is already stored (first component: its key list contains
1), yet insert returns `True` and the key multiset gains a duplicate
1 (final key list [1, 2, 3, 1]). -/
theorem C6_reinsert_present_returns_true :
    ((BTree.insertSeq 100 3 (.node [] []) [1, 2, 3, 4]).bind
        (fun p => BTree.removeT 100 3 p.2 4)).bind
        (fun q => (BTree.insertT 100 3 q.2 1).map
          (fun r => ((BTree.allKeys q.2).contains 1, r.1, BTree.allKeys r.2)))
      = some (true, true, [1, 2, 3, 1]) := by rfl

/-- C8: confirmed on the store model (which carries the `parent`
fields).  Starting from a fresh order-4 root (index 0) and inserting
the fifteen values in order, the root object ends with keys
[-6, 0, 3, 6] and five children holding [-10, -8], [-4, -2], [1, 2],
[4, 5], [8, 9, 10] respectively, and every child's `parent` field
points back at the root object. -/
theorem C8_concrete_insert_scenario :
    ((pInsertSeq 100 [⟨4, [], [], none⟩] 0
        [0, -2, 2, -4, 4, 6, 8, 10, -6, -8, -10, 1, 3, 5, 9]).bind
      (fun s =>
        (s.get? 0).map (fun root =>
          (root.keys,
           root.children.map (fun c => (s.get? c).map PNode.keys),
           root.children.all (fun c => (s.get? c).map PNode.parent == some (some 0))))))
    = some ([-6, 0, 3, 6],
            [some [-10, -8], some [-4, -2], some [1, 2], some [4, 5], some [8, 9, 10]],
            true) := by rfl

/-- C10: confirmed.  Whenever `_remove_rebalance` runs for a node
whose present siblings are leaves (always the case when the
underflowing node is a leaf, since in a tree with all leaves at equal
depth its siblings are leaves too), neither rotation branch can be
selected: the capacity guards compare the sibling's `num_children` -
which is 0 for a leaf - against `order`, and `0 > order` never holds,
so the branch taken is always one of the two merges. -/
theorem C10_leaf_rebalance_is_merge (order : Nat) (lsib rsib : Option BTree)
    (hl : ∀ l, lsib = some l → l.children = [])
    (hr : ∀ r, rsib = some r → r.children = []) :
    BTree.rebalanceBranch order lsib rsib = .combineSelf
      ∨ BTree.rebalanceBranch order lsib rsib = .combineRight := by
  unfold BTree.rebalanceBranch
  cases lsib with
  | none =>
    cases rsib with
    | none => simp
    | some r =>
      obtain ⟨ks, cs⟩ := r
      have h2 : cs = [] := by simpa [BTree.children] using hr (BTree.node ks cs) rfl
      subst h2
      simp [BTree.children]
  | some l =>
    obtain ⟨ksl, csl⟩ := l
    have h1 : csl = [] := by simpa [BTree.children] using hl (BTree.node ksl csl) rfl
    subst h1
    cases rsib with
    | none => simp [BTree.children]
    | some r =>
      obtain ⟨ks, cs⟩ := r
      have h2 : cs = [] := by simpa [BTree.children] using hr (BTree.node ks cs) rfl
      subst h2
      simp [BTree.children]

/-- Witness for `C10_leaf_rebalance_is_merge` at a concrete input: an
underflowing node with a single-key leaf left sibling and no right
sibling, order 2. -/
theorem C10_leaf_rebalance_is_merge_witness :
    BTree.rebalanceBranch 2 (some (.node [1] [])) none = .combineSelf
      ∨ BTree.rebalanceBranch 2 (some (.node [1] [])) none = .combineRight :=
  C10_leaf_rebalance_is_merge 2 (some (.node [1] [])) none
    (fun l h => by cases h; rfl) (fun r h => nomatch h)

namespace BTree

/-- Key-count bound carried by an `insert` outcome: for `ok` the whole
subtree obeys invariant 2, for `split` both key partitions fit in a
node and both child partitions obey invariant 2. -/
def resCounts (order : Nat) : InsRes → Bool
  | .ok t => countsLE order t
  | .split _ lk rk lc rc =>
    decide (lk.length ≤ order) && decide (rk.length ≤ order)
      && countsLEL order lc && countsLEL order rc

theorem countsLEL_iff_mem (order : Nat) (cs : List BTree) :
    countsLEL order cs = true ↔ ∀ c ∈ cs, countsLE order c = true := by
  induction cs with
  | nil => simp [countsLEL]
  | cons c rest ih => simp [countsLEL, ih]

theorem countsLE_keys_le (order : Nat) (ks : List Int) (cs : List BTree)
    (h : countsLE order (.node ks cs) = true) : ks.length ≤ order := by
  simp only [countsLE, Bool.and_eq_true, decide_eq_true_eq] at h
  exact h.1

theorem countsLE_children (order : Nat) (ks : List Int) (cs : List BTree)
    (h : countsLE order (.node ks cs) = true) : countsLEL order cs = true := by
  simp only [countsLE, Bool.and_eq_true] at h
  exact h.2

theorem countsLEL_set (order : Nat) (cs : List BTree) (i : Nat) (c : BTree)
    (hcs : countsLEL order cs = true) (hc : countsLE order c = true) :
    countsLEL order (cs.set i c) = true := by
  rw [countsLEL_iff_mem] at hcs ⊢
  intro x hx
  rcases List.mem_or_eq_of_mem_set hx with hmem | rfl
  · exact hcs x hmem
  · exact hc

theorem leafInsert_length (v : Int) (ks ks2 : List Int)
    (h : leafInsert v ks = some ks2) : ks2.length = ks.length + 1 := by
  induction ks generalizing ks2 with
  | nil => simp [leafInsert] at h; simp [← h]
  | cons k rest ih =>
    simp only [leafInsert] at h
    by_cases h1 : k = v
    · simp [h1] at h
    · rw [if_neg h1] at h
      by_cases h2 : k > v
      · rw [if_pos h2] at h
        cases h
        simp
      · rw [if_neg h2] at h
        cases h3 : leafInsert v rest with
        | none => rw [h3] at h; simp at h
        | some l =>
          rw [h3] at h
          simp only [Option.map_some'] at h
          cases h
          simp [ih l h3]

theorem medianSplit_counts (order : Nat) (ks : List Int) (cs : List BTree)
    (h1 : ks.length ≤ order + 1) (hord : 1 ≤ order)
    (hcs : countsLEL order cs = true) :
    resCounts order (medianSplit ks cs) = true := by
  simp only [medianSplit, resCounts, Bool.and_eq_true, decide_eq_true_eq]
  refine ⟨⟨⟨?_, ?_⟩, ?_⟩, ?_⟩
  · simp only [List.length_take]
    omega
  · simp only [List.length_drop]
    omega
  · rw [countsLEL_iff_mem] at hcs ⊢
    exact fun c hc => hcs c (List.take_subset _ _ hc)
  · rw [countsLEL_iff_mem] at hcs ⊢
    exact fun c hc => hcs c (List.drop_subset _ _ hc)

theorem insertAt_length (i : Nat) (v : Int) (l : List Int) :
    (insertAt i v l).length = l.length + 1 := by
  simp only [insertAt, List.length_append, List.length_take, List.length_cons,
    List.length_drop]
  omega

theorem insertRecurseStep_counts (order : Nat) (ks : List Int) (cs : List BTree)
    (m : Int) (lk rk : List Int) (hord : 1 ≤ order) (hks : ks.length ≤ order)
    (hcs : countsLEL order cs = true) (hlk : lk.length ≤ order)
    (hrk : rk.length ≤ order) :
    resCounts order (insertRecurseStep order ks cs m lk rk) = true := by
  have hnode : ∀ l : List Int, l.length ≤ order → countsLE order (BTree.node l []) = true := by
    intro l hl
    simp [countsLE, countsLEL, hl]
  have key : ∀ (ks2 : List Int) (cs2 : List BTree),
      ks2.length = ks.length + 1 → countsLEL order cs2 = true →
      resCounts order
        (if ks2.length > order then medianSplit ks2 cs2 else .ok (BTree.node ks2 cs2)) = true := by
    intro ks2 cs2 hlen hcs2
    by_cases hov : ks2.length > order
    · rw [if_pos hov]
      exact medianSplit_counts order _ _ (by omega) hord hcs2
    · rw [if_neg hov]
      simp only [resCounts, countsLE, Bool.and_eq_true, decide_eq_true_eq]
      exact ⟨by omega, hcs2⟩
  cases hidx : firstIdxGT m ks with
  | some j =>
    have hcs2 : countsLEL order (splice11 j [BTree.node lk [], BTree.node rk []] cs) = true := by
      rw [countsLEL_iff_mem]
      intro c hc
      simp only [splice11, List.mem_append, List.mem_cons] at hc
      rcases hc with (hc | hc) | hc
      · exact (countsLEL_iff_mem order cs).mp hcs c (List.take_subset _ _ hc)
      · rcases hc with rfl | hc
        · exact hnode lk hlk
        · rcases hc with rfl | hc
          · exact hnode rk hrk
          · simp at hc
      · exact (countsLEL_iff_mem order cs).mp hcs c (List.drop_subset _ _ hc)
    have hgoal := key (insertAt j m ks) (splice11 j [BTree.node lk [], BTree.node rk []] cs)
      (insertAt_length j m ks) hcs2
    simpa only [insertRecurseStep, hidx] using hgoal
  | none =>
    have hcs2 : countsLEL order (cs.dropLast ++ [BTree.node lk [], BTree.node rk []]) = true := by
      rw [countsLEL_iff_mem]
      intro c hc
      simp only [List.mem_append, List.mem_cons] at hc
      rcases hc with hc | hc
      · exact (countsLEL_iff_mem order cs).mp hcs c (List.dropLast_subset _ hc)
      · rcases hc with rfl | hc
        · exact hnode lk hlk
        · rcases hc with rfl | hc
          · exact hnode rk hrk
          · simp at hc
    have hgoal := key (ks ++ [m]) (cs.dropLast ++ [BTree.node lk [], BTree.node rk []])
      (by simp) hcs2
    simpa only [insertRecurseStep, hidx] using hgoal

theorem insertGo_counts (fuel : Nat) :
    ∀ (order : Nat) (v : Int) (t : BTree) (b : Bool) (r : InsRes),
      1 ≤ order → countsLE order t = true →
      insertGo fuel order t v = some (b, r) →
      resCounts order r = true := by
  induction fuel with
  | zero =>
    intro order v t b r _ _ h
    simp [insertGo] at h
  | succ fuel ih =>
    intro order v t b r hord hc h
    cases t with
    | node ks cs =>
      have hks := countsLE_keys_le order ks cs hc
      have hcl := countsLE_children order ks cs hc
      simp only [insertGo] at h
      split at h
      · -- leaf branch (children empty)
        rename_i hcs
        have hcsnil : cs = [] := List.isEmpty_iff.mp hcs
        split at h
        · -- value already present
          cases h
          simpa [resCounts] using hc
        · -- value inserted into the keys
          rename_i ks2 hleaf
          have hl2 := leafInsert_length v ks ks2 hleaf
          split at h
          · -- overflow: median split
            rename_i hov
            cases h
            subst hcsnil
            exact medianSplit_counts order ks2 [] (by omega) hord (by simp [countsLEL])
          · rename_i hov
            cases h
            simp only [resCounts, countsLE, Bool.and_eq_true, decide_eq_true_eq]
            exact ⟨by omega, hcl⟩
      · -- internal branch
        rename_i hcs
        split at h
        · -- equal key found: already present
          cases h
          simpa [resCounts] using hc
        · -- a greater key found: descend into children[i]
          rename_i i hscan
          split at h
          · cases h
          · rename_i c hget
            have hcmem : countsLE order c = true :=
              (countsLEL_iff_mem order cs).mp hcl c (List.get?_mem hget)
            split at h
            · cases h
            · rename_i b2 c2 hrec
              have hres := ih order v c b2 (.ok c2) hord hcmem hrec
              cases h
              simp only [resCounts] at hres ⊢
              simp only [countsLE, Bool.and_eq_true, decide_eq_true_eq]
              exact ⟨hks, countsLEL_set order cs i c2 hcl hres⟩
            · rename_i b2 m lk rk lc rc hrec
              have hres := ih order v c b2 (.split m lk rk lc rc) hord hcmem hrec
              cases h
              simp only [resCounts, Bool.and_eq_true, decide_eq_true_eq] at hres
              exact insertRecurseStep_counts order ks cs m lk rk hord hks hcl
                hres.1.1.1 hres.1.1.2
        · -- no greater key: descend into the last child
          rename_i hscan
          split at h
          · cases h
          · rename_i c hget
            have hcmem : countsLE order c = true :=
              (countsLEL_iff_mem order cs).mp hcl c (List.mem_of_mem_getLast? hget)
            split at h
            · cases h
            · rename_i b2 c2 hrec
              have hres := ih order v c b2 (.ok c2) hord hcmem hrec
              cases h
              simp only [resCounts] at hres ⊢
              simp only [countsLE, Bool.and_eq_true, decide_eq_true_eq]
              exact ⟨hks, countsLEL_set order cs (cs.length - 1) c2 hcl hres⟩
            · rename_i b2 m lk rk lc rc hrec
              have hres := ih order v c b2 (.split m lk rk lc rc) hord hcmem hrec
              cases h
              simp only [resCounts, Bool.and_eq_true, decide_eq_true_eq] at hres
              exact insertRecurseStep_counts order ks cs m lk rk hord hks hcl
                hres.1.1.1 hres.1.1.2

end BTree

mutual
theorem BTree.wfB_countsLE (order : Nat) (root : Bool) (lo hi : Option Int) (t : BTree)
    (h : BTree.wfB order root lo hi t = true) : BTree.countsLE order t = true := by
  cases t with
  | node ks cs =>
    simp only [BTree.wfB, Bool.and_eq_true, decide_eq_true_eq, Bool.or_eq_true] at h
    simp only [BTree.countsLE, Bool.and_eq_true, decide_eq_true_eq]
    refine ⟨h.1.1.2, ?_⟩
    rcases h.2 with hnil | hwalk
    · rw [List.isEmpty_iff.mp hnil]
      simp [BTree.countsLEL]
    · exact BTree.wfWalk_countsLEL order lo hi ks cs hwalk.2

theorem BTree.wfWalk_countsLEL (order : Nat) (lo hi : Option Int) (ks : List Int)
    (cs : List BTree) (h : BTree.wfWalk order lo hi ks cs = true) :
    BTree.countsLEL order cs = true := by
  match ks, cs with
  | [], [c] =>
    simp only [BTree.wfWalk] at h
    simp only [BTree.countsLEL, Bool.and_eq_true]
    exact ⟨BTree.wfB_countsLE order false lo hi c h, trivial⟩
  | k :: ks, c :: cs =>
    simp only [BTree.wfWalk, Bool.and_eq_true] at h
    simp only [BTree.countsLEL, Bool.and_eq_true]
    exact ⟨BTree.wfB_countsLE order false lo (some k) c h.1,
      BTree.wfWalk_countsLEL order (some k) hi ks cs h.2⟩
  | [], [] => simp [BTree.wfWalk] at h
  | [], _ :: _ :: _ => simp [BTree.wfWalk] at h
  | _ :: _, [] => simp [BTree.wfWalk] at h
end

/-- C7: confirmed.  For a well-formed tree of order at least 2, every
completed `insert` call leaves every node of the resulting tree with
at most `order` keys: an overfull node (which can only reach
`order + 1` keys) is always median-split before the call returns, and
the split pieces fit. -/
theorem C7_insert_keeps_key_bound (fuel order : Nat) (t : BTree) (v : Int) (b : Bool)
    (t2 : BTree) (hwf : BTree.wfB order true none none t = true) (hord : 2 ≤ order)
    (hrun : BTree.insertT fuel order t v = some (b, t2)) :
    BTree.countsLE order t2 = true := by
  have hc := BTree.wfB_countsLE order true none none t hwf
  simp only [BTree.insertT] at hrun
  cases hgo : BTree.insertGo fuel order t v with
  | none => rw [hgo] at hrun; cases hrun
  | some q =>
    rcases q with ⟨b2, r⟩
    rw [hgo] at hrun
    have hres := BTree.insertGo_counts fuel order v t b2 r (by omega) hc hgo
    cases r with
    | ok t3 =>
      cases hrun
      simpa [BTree.resCounts] using hres
    | split m lk rk lc rc =>
      cases hrun
      simp only [BTree.resCounts, Bool.and_eq_true, decide_eq_true_eq] at hres
      simp only [BTree.countsLE, BTree.countsLEL, Bool.and_eq_true, decide_eq_true_eq]
      exact ⟨by simp; omega, ⟨hres.1.1.1, hres.1.2⟩, ⟨hres.1.1.2, hres.2⟩, trivial⟩

/-- Witness for `C7_insert_keeps_key_bound` at a concrete input:
order 2, the well-formed one-leaf tree [1], inserting 2. -/
theorem C7_insert_keeps_key_bound_witness :
    BTree.wfB 2 true none none (.node [1] []) = true ∧ 2 ≤ 2
      ∧ BTree.insertT 5 2 (.node [1] []) 2 = some (true, .node [1, 2] [])
      ∧ BTree.countsLE 2 (.node [1, 2] []) = true :=
  ⟨rfl, le_refl 2, rfl,
    C7_insert_keeps_key_bound 5 2 (.node [1] []) 2 true (.node [1, 2] []) rfl
      (le_refl 2) rfl⟩

namespace BTree

theorem oltB_of_le (lo : Option Int) (a b : Int) (h : oltB lo a = true) (hab : a ≤ b) :
    oltB lo b = true := by
  cases lo with
  | none => rfl
  | some x =>
    simp only [oltB, decide_eq_true_eq] at h ⊢
    omega

theorem ortB_of_le (hi : Option Int) (a b : Int) (h : ortB a hi = true) (hba : b ≤ a) :
    ortB b hi = true := by
  cases hi with
  | none => rfl
  | some x =>
    simp only [ortB, decide_eq_true_eq] at h ⊢
    omega

theorem chainB_mem (lo hi : Option Int) (ks : List Int) (h : chainB lo hi ks = true) :
    ∀ k ∈ ks, oltB lo k = true ∧ ortB k hi = true := by
  induction ks generalizing lo with
  | nil => intro k hk; simp at hk
  | cons k0 rest ih =>
    simp only [chainB, Bool.and_eq_true] at h
    intro k hk
    rcases List.mem_cons.mp hk with rfl | hk
    · exact ⟨h.1.1, h.1.2⟩
    · have hb := ih (some k0) h.2 k hk
      have hlt : k0 < k := by simpa [oltB] using hb.1
      exact ⟨oltB_of_le lo k0 k h.1.1 (le_of_lt hlt), hb.2⟩

theorem chainB_getLast_ub (lo hi : Option Int) (ks : List Int) (L : Int)
    (h : chainB lo hi ks = true) (hL : ks.getLast? = some L) : ∀ k ∈ ks, k ≤ L := by
  induction ks generalizing lo with
  | nil => simp at hL
  | cons k0 rest ih =>
    simp only [chainB, Bool.and_eq_true] at h
    cases rest with
    | nil =>
      intro k hk
      simp at hk hL
      omega
    | cons k1 rest2 =>
      rw [List.getLast?_cons_cons] at hL
      intro k hk
      rcases List.mem_cons.mp hk with rfl | hk
      · have hmemL : L ∈ k1 :: rest2 := List.mem_of_mem_getLast? hL
        have hb := chainB_mem (some k) hi (k1 :: rest2) h.2 L hmemL
        have : k < L := by simpa [oltB] using hb.1
        omega
      · exact ih (some k0) h.2 hL k hk

theorem chainB_head_lb (lo hi : Option Int) (ks : List Int) (F : Int)
    (h : chainB lo hi ks = true) (hF : ks.head? = some F) : ∀ k ∈ ks, F ≤ k := by
  cases ks with
  | nil => simp at hF
  | cons k0 rest =>
    obtain rfl : k0 = F := by simpa using hF
    simp only [chainB, Bool.and_eq_true] at h
    intro k hk
    rcases List.mem_cons.mp hk with rfl | hk
    · exact le_refl k
    · have hb := chainB_mem (some k0) hi rest h.2 k hk
      have : k0 < k := by simpa [oltB] using hb.1
      omega

end BTree

mutual
/-- Invariant 4 globally: in a well-formed subtree every stored key
lies strictly inside the node's open interval. -/
theorem BTree.keysBound (order : Nat) (root : Bool) (lo hi : Option Int) (t : BTree)
    (hwf : BTree.wfB order root lo hi t = true) :
    ∀ x ∈ BTree.allKeys t, BTree.oltB lo x = true ∧ BTree.ortB x hi = true := by
  cases t with
  | node ks cs =>
    simp only [BTree.wfB, Bool.and_eq_true, Bool.or_eq_true, decide_eq_true_eq] at hwf
    intro x hx
    simp only [BTree.allKeys, List.mem_append] at hx
    rcases hx with hx | hx
    · exact BTree.chainB_mem lo hi ks hwf.1.1.1 x hx
    · rcases hwf.2 with hnil | hw
      · rw [List.isEmpty_iff.mp hnil] at hx
        simp [BTree.allKeysL] at hx
      · exact BTree.keysBoundW order lo hi ks cs hwf.1.1.1 hw.2 x hx

/-- Walk version of `keysBound`: given the separator chain of the
node, every key stored under its children lies strictly inside the
node's own interval. -/
theorem BTree.keysBoundW (order : Nat) (lo hi : Option Int) (ks : List Int) (cs : List BTree)
    (hch : BTree.chainB lo hi ks = true) (hw : BTree.wfWalk order lo hi ks cs = true) :
    ∀ x ∈ BTree.allKeysL cs, BTree.oltB lo x = true ∧ BTree.ortB x hi = true := by
  match ks, cs with
  | [], [c] =>
    simp only [BTree.wfWalk] at hw
    intro x hx
    simp only [BTree.allKeysL, List.mem_append] at hx
    rcases hx with hx | hx
    · exact BTree.keysBound order false lo hi c hw x hx
    · simp [BTree.allKeysL] at hx
  | k :: ks2, c :: cs2 =>
    simp only [BTree.wfWalk, Bool.and_eq_true] at hw
    simp only [BTree.chainB, Bool.and_eq_true] at hch
    intro x hx
    simp only [BTree.allKeysL, List.mem_append] at hx
    rcases hx with hx | hx
    · have hb := BTree.keysBound order false lo (some k) c hw.1 x hx
      refine ⟨hb.1, ?_⟩
      have hxk : x < k := by simpa [BTree.ortB] using hb.2
      exact BTree.ortB_of_le hi k x hch.1.2 (le_of_lt hxk)
    · have hb := BTree.keysBoundW order (some k) hi ks2 cs2 hch.2 hw.2 x hx
      refine ⟨?_, hb.2⟩
      have hkx : k < x := by simpa [BTree.oltB] using hb.1
      exact BTree.oltB_of_le lo k x hch.1.1 (le_of_lt hkx)
  | [], [] => simp [BTree.wfWalk] at hw
  | [], _ :: _ :: _ => simp [BTree.wfWalk] at hw
  | _ :: _, [] => simp [BTree.wfWalk] at hw
end

mutual
/-- In a well-formed subtree whose leaves are all non-empty,
`maximum` returns a stored key that bounds every stored key from
above and lies inside the subtree's interval. -/
theorem BTree.maxSpec (order : Nat) (root : Bool) (lo hi : Option Int) (t : BTree)
    (hwf : BTree.wfB order root lo hi t = true) (hne : BTree.leavesNE t = true) :
    ∃ M, BTree.maximumT t = some M ∧ M ∈ BTree.allKeys t
      ∧ (∀ k ∈ BTree.allKeys t, k ≤ M)
      ∧ BTree.oltB lo M = true ∧ BTree.ortB M hi = true := by
  cases t with
  | node ks cs =>
    simp only [BTree.wfB, Bool.and_eq_true, Bool.or_eq_true, decide_eq_true_eq] at hwf
    have hch := hwf.1.1.1
    by_cases hcs : cs.isEmpty
    · have hcsnil : cs = [] := List.isEmpty_iff.mp hcs
      subst hcsnil
      have hksne : ks ≠ [] := by
        have hne2 : (!ks.isEmpty) = true := hne
        simpa using hne2
      cases hL : ks.getLast? with
      | none => exact absurd (List.getLast?_eq_none_iff.mp hL) hksne
      | some L =>
        refine ⟨L, ?_, ?_, ?_, ?_, ?_⟩
        · simp [BTree.maximumT, hL]
        · simp only [BTree.allKeys, BTree.allKeysL, List.append_nil]
          exact List.mem_of_mem_getLast? hL
        · simp only [BTree.allKeys, BTree.allKeysL, List.append_nil]
          exact BTree.chainB_getLast_ub lo hi ks L hch hL
        · exact (BTree.chainB_mem lo hi ks hch L (List.mem_of_mem_getLast? hL)).1
        · exact (BTree.chainB_mem lo hi ks hch L (List.mem_of_mem_getLast? hL)).2
    · have hw : BTree.wfWalk order lo hi ks cs = true := by
        rcases hwf.2 with hnil | hw2
        · exact absurd hnil (by simpa using hcs)
        · exact hw2.2
      have hneL : BTree.leavesNEL cs = true := by
        simp only [BTree.leavesNE] at hne
        rwa [if_neg hcs] at hne
      obtain ⟨M, clast, hlast, hmaxc, hmem, hksM, hallM, holt, hort⟩ :=
        BTree.maxSpecW order lo hi ks cs hch hw hneL
      refine ⟨M, ?_, ?_, ?_, holt, hort⟩
      · simp only [BTree.maximumT]
        rw [if_neg hcs]
        split
        next heq =>
          rw [hlast] at heq
          cases heq
        next c3 heq =>
          rw [hlast] at heq
          cases heq
          exact hmaxc
      · simp only [BTree.allKeys, List.mem_append]
        exact Or.inr hmem
      · intro k hk
        simp only [BTree.allKeys, List.mem_append] at hk
        rcases hk with hk | hk
        · exact le_of_lt (hksM k hk)
        · exact hallM k hk

/-- Walk version of `maxSpec`: the maximum of the last child bounds
the whole walk (separators and all children) from above. -/
theorem BTree.maxSpecW (order : Nat) (lo hi : Option Int) (ks : List Int) (cs : List BTree)
    (hch : BTree.chainB lo hi ks = true) (hw : BTree.wfWalk order lo hi ks cs = true)
    (hne : BTree.leavesNEL cs = true) :
    ∃ M clast, cs.getLast? = some clast ∧ BTree.maximumT clast = some M
      ∧ M ∈ BTree.allKeysL cs ∧ (∀ k ∈ ks, k < M) ∧ (∀ k ∈ BTree.allKeysL cs, k ≤ M)
      ∧ BTree.oltB lo M = true ∧ BTree.ortB M hi = true := by
  match ks, cs with
  | [], [c] =>
    simp only [BTree.wfWalk] at hw
    simp only [BTree.leavesNEL, Bool.and_eq_true] at hne
    obtain ⟨M, hmax, hmem, hall, holt, hort⟩ :=
      BTree.maxSpec order false lo hi c hw hne.1
    refine ⟨M, c, rfl, hmax, ?_, ?_, ?_, holt, hort⟩
    · simpa [BTree.allKeysL] using hmem
    · intro k hk
      simp at hk
    · intro k hk
      simp only [BTree.allKeysL, List.append_nil] at hk
      exact hall k hk
  | k0 :: ks2, c :: cs2 =>
    simp only [BTree.wfWalk, Bool.and_eq_true] at hw
    simp only [BTree.chainB, Bool.and_eq_true] at hch
    simp only [BTree.leavesNEL, Bool.and_eq_true] at hne
    cases cs2 with
    | nil =>
      have hw2 := hw.2
      cases ks2 <;> simp [BTree.wfWalk] at hw2
    | cons c2 rest =>
      obtain ⟨M, clast, hlast, hmaxc, hmem, hks2M, hallM, holt2, hort2⟩ :=
        BTree.maxSpecW order (some k0) hi ks2 (c2 :: rest) hch.2 hw.2 hne.2
      have hk0M : k0 < M := by simpa [BTree.oltB] using holt2
      refine ⟨M, clast, ?_, hmaxc, ?_, ?_, ?_, ?_, hort2⟩
      · rw [List.getLast?_cons_cons]
        exact hlast
      · rw [show BTree.allKeysL (c :: c2 :: rest)
            = BTree.allKeys c ++ BTree.allKeysL (c2 :: rest) from rfl]
        exact List.mem_append_right _ hmem
      · intro k hk
        rcases List.mem_cons.mp hk with rfl | hk
        · exact hk0M
        · exact hks2M k hk
      · intro x hx
        rw [show BTree.allKeysL (c :: c2 :: rest)
            = BTree.allKeys c ++ BTree.allKeysL (c2 :: rest) from rfl] at hx
        rcases List.mem_append.mp hx with hx | hx
        · have hb := BTree.keysBound order false lo (some k0) c hw.1 x hx
          have hxk : x < k0 := by simpa [BTree.ortB] using hb.2
          omega
        · exact hallM x hx
      · exact BTree.oltB_of_le lo k0 M hch.1.1 (le_of_lt hk0M)
  | [], [] => simp [BTree.wfWalk] at hw
  | [], _ :: _ :: _ => simp [BTree.wfWalk] at hw
  | _ :: _, [] => simp [BTree.wfWalk] at hw
end

mutual
/-- In a well-formed subtree whose leaves are all non-empty,
`minimum` returns a stored key that bounds every stored key from
below and lies inside the subtree's interval. -/
theorem BTree.minSpec (order : Nat) (root : Bool) (lo hi : Option Int) (t : BTree)
    (hwf : BTree.wfB order root lo hi t = true) (hne : BTree.leavesNE t = true) :
    ∃ m, BTree.minimumT t = some m ∧ m ∈ BTree.allKeys t
      ∧ (∀ k ∈ BTree.allKeys t, m ≤ k)
      ∧ BTree.oltB lo m = true ∧ BTree.ortB m hi = true := by
  cases t with
  | node ks cs =>
    simp only [BTree.wfB, Bool.and_eq_true, Bool.or_eq_true, decide_eq_true_eq] at hwf
    have hch := hwf.1.1.1
    by_cases hcs : cs.isEmpty
    · have hcsnil : cs = [] := List.isEmpty_iff.mp hcs
      subst hcsnil
      have hksne : ks ≠ [] := by
        have hne2 : (!ks.isEmpty) = true := hne
        simpa using hne2
      cases hF : ks.head? with
      | none => exact absurd (List.head?_eq_none_iff.mp hF) hksne
      | some F =>
        refine ⟨F, ?_, ?_, ?_, ?_, ?_⟩
        · simp [BTree.minimumT, hF]
        · simp only [BTree.allKeys, BTree.allKeysL, List.append_nil]
          exact List.mem_of_mem_head? hF
        · simp only [BTree.allKeys, BTree.allKeysL, List.append_nil]
          exact BTree.chainB_head_lb lo hi ks F hch hF
        · exact (BTree.chainB_mem lo hi ks hch F (List.mem_of_mem_head? hF)).1
        · exact (BTree.chainB_mem lo hi ks hch F (List.mem_of_mem_head? hF)).2
    · have hw : BTree.wfWalk order lo hi ks cs = true := by
        rcases hwf.2 with hnil | hw2
        · exact absurd hnil (by simpa using hcs)
        · exact hw2.2
      have hneL : BTree.leavesNEL cs = true := by
        simp only [BTree.leavesNE] at hne
        rwa [if_neg hcs] at hne
      obtain ⟨m, cfirst, hfirst, hminc, hmem, hksm, hallm, holt, hort⟩ :=
        BTree.minSpecW order lo hi ks cs hch hw hneL
      refine ⟨m, ?_, ?_, ?_, holt, hort⟩
      · simp only [BTree.minimumT]
        rw [if_neg hcs]
        split
        next heq =>
          rw [hfirst] at heq
          cases heq
        next c3 heq =>
          rw [hfirst] at heq
          cases heq
          exact hminc
      · simp only [BTree.allKeys, List.mem_append]
        exact Or.inr hmem
      · intro k hk
        simp only [BTree.allKeys, List.mem_append] at hk
        rcases hk with hk | hk
        · exact le_of_lt (hksm k hk)
        · exact hallm k hk

/-- Walk version of `minSpec`: the minimum of the first child bounds
the whole walk (separators and all children) from below. -/
theorem BTree.minSpecW (order : Nat) (lo hi : Option Int) (ks : List Int) (cs : List BTree)
    (hch : BTree.chainB lo hi ks = true) (hw : BTree.wfWalk order lo hi ks cs = true)
    (hne : BTree.leavesNEL cs = true) :
    ∃ m cfirst, cs.head? = some cfirst ∧ BTree.minimumT cfirst = some m
      ∧ m ∈ BTree.allKeysL cs ∧ (∀ k ∈ ks, m < k) ∧ (∀ k ∈ BTree.allKeysL cs, m ≤ k)
      ∧ BTree.oltB lo m = true ∧ BTree.ortB m hi = true := by
  match ks, cs with
  | [], [c] =>
    simp only [BTree.wfWalk] at hw
    simp only [BTree.leavesNEL, Bool.and_eq_true] at hne
    obtain ⟨m, hmin, hmem, hall, holt, hort⟩ :=
      BTree.minSpec order false lo hi c hw hne.1
    refine ⟨m, c, rfl, hmin, ?_, ?_, ?_, holt, hort⟩
    · simpa [BTree.allKeysL] using hmem
    · intro k hk
      simp at hk
    · intro k hk
      simp only [BTree.allKeysL, List.append_nil] at hk
      exact hall k hk
  | k0 :: ks2, c :: cs2 =>
    simp only [BTree.wfWalk, Bool.and_eq_true] at hw
    simp only [BTree.chainB, Bool.and_eq_true] at hch
    simp only [BTree.leavesNEL, Bool.and_eq_true] at hne
    obtain ⟨m, hmin, hmem, hall, holt, hortk⟩ :=
      BTree.minSpec order false lo (some k0) c hw.1 hne.1
    have hmk0 : m < k0 := by simpa [BTree.ortB] using hortk
    refine ⟨m, c, rfl, hmin, ?_, ?_, ?_, holt, ?_⟩
    · simp only [BTree.allKeysL, List.mem_append]
      exact Or.inl hmem
    · intro k hk
      rcases List.mem_cons.mp hk with rfl | hk
      · exact hmk0
      · have hb := BTree.chainB_mem (some k0) hi ks2 hch.2 k hk
        have : k0 < k := by simpa [BTree.oltB] using hb.1
        omega
    · intro x hx
      simp only [BTree.allKeysL, List.mem_append] at hx
      rcases hx with hx | hx
      · exact hall x hx
      · have hb := BTree.keysBoundW order (some k0) hi ks2 cs2 hch.2 hw.2 x hx
        have : k0 < x := by simpa [BTree.oltB] using hb.1
        omega
    · exact BTree.ortB_of_le hi k0 m hch.1.2 (le_of_lt hmk0)
  | [], [] => simp [BTree.wfWalk] at hw
  | [], _ :: _ :: _ => simp [BTree.wfWalk] at hw
  | _ :: _, [] => simp [BTree.wfWalk] at hw
end

/-- C9: the claim as stated is false on the code.  The order-2 tree
with root keys [5] and children [] and [7] satisfies every data-model
invariant (for order 2 the minimum occupancy `ceil(2/2) - 1` is 0, so
the empty non-root leaf is legal) and stores the non-empty key set
[5, 7], yet `minimum` crashes: it descends into the first child and
evaluates `keys[0]` of an empty list (IndexError, modelled `none`)
instead of returning the smallest stored key 5. -/
theorem C9_minimum_fails_on_wf_tree :
    BTree.wfB 2 true none none (.node [5] [.node [] [], .node [7] []]) = true
      ∧ BTree.allKeys (.node [5] [.node [] [], .node [7] []]) = [5, 7]
      ∧ BTree.minimumT (.node [5] [.node [] [], .node [7] []]) = none :=
  ⟨rfl, rfl, by simp [BTree.minimumT]⟩

/-- C9 amended: for every well-formed tree in which every leaf holds
at least one key (spec invariants 1-5 allow an empty non-root leaf
when `ceil(order/2) - 1 = 0`, which makes the original claim fail),
`maximum` returns the largest stored key and `minimum` the smallest.
Both are pure reads: in this functional model they return a value and
no tree, and the source performs no assignment on these paths. -/
theorem C9_max_min_correct (order : Nat) (t : BTree)
    (hwf : BTree.wfB order true none none t = true)
    (hne : BTree.leavesNE t = true) :
    (∃ M, BTree.maximumT t = some M ∧ M ∈ BTree.allKeys t
        ∧ ∀ k ∈ BTree.allKeys t, k ≤ M)
      ∧ ∃ m, BTree.minimumT t = some m ∧ m ∈ BTree.allKeys t
        ∧ ∀ k ∈ BTree.allKeys t, m ≤ k := by
  obtain ⟨M, h1, h2, h3, -, -⟩ := BTree.maxSpec order true none none t hwf hne
  obtain ⟨m, g1, g2, g3, -, -⟩ := BTree.minSpec order true none none t hwf hne
  exact ⟨⟨M, h1, h2, h3⟩, ⟨m, g1, g2, g3⟩⟩

/-- Witness for `C9_max_min_correct` at a concrete input: the
well-formed order-2 tree with root [2] and leaf children [1] and [3],
whose leaves are all non-empty. -/
theorem C9_max_min_correct_witness :
    BTree.wfB 2 true none none (.node [2] [.node [1] [], .node [3] []]) = true
      ∧ BTree.leavesNE (.node [2] [.node [1] [], .node [3] []]) = true
      ∧ ((∃ M, BTree.maximumT (.node [2] [.node [1] [], .node [3] []]) = some M
            ∧ M ∈ BTree.allKeys (.node [2] [.node [1] [], .node [3] []])
            ∧ ∀ k ∈ BTree.allKeys (.node [2] [.node [1] [], .node [3] []]), k ≤ M)
          ∧ ∃ m, BTree.minimumT (.node [2] [.node [1] [], .node [3] []]) = some m
            ∧ m ∈ BTree.allKeys (.node [2] [.node [1] [], .node [3] []])
            ∧ ∀ k ∈ BTree.allKeys (.node [2] [.node [1] [], .node [3] []]), m ≤ k) :=
  ⟨rfl, rfl, C9_max_min_correct 2 (.node [2] [.node [1] [], .node [3] []]) rfl rfl⟩
